import Mathlib

/-!
Verification of the YouTube comment sentiment pipeline.

Shallow embedding of the fetch-and-annotate pipeline of src/mainprocess.py
together with the processed-file readers of src/analyze_eval.py,
src/app_streamlit.py and check_processed.py.  Text is modelled as List Char,
machine floats carrying sentiment scores as exact rationals, the paginated
HTTP API as an explicit list of per-call results, and the filesystem effects
of run as the list of (directory, filename) pairs it writes.
-/

namespace YtSent

/-- Character class of the Python regex shorthand for whitespace (and of
str.strip) on str inputs: ASCII whitespace, the file/group/record/unit
separators, NEL, and the Unicode space characters. -/

def pySpace (c : Char) : Bool :=
  decide (c.toNat = 0x20) || decide (0x09 ≤ c.toNat ∧ c.toNat ≤ 0x0D) ||
  decide (0x1C ≤ c.toNat ∧ c.toNat ≤ 0x1F) || decide (c.toNat = 0x85) ||
  decide (c.toNat = 0xA0) || decide (c.toNat = 0x1680) ||
  decide (0x2000 ≤ c.toNat ∧ c.toNat ≤ 0x200A) || decide (c.toNat = 0x2028) ||
  decide (c.toNat = 0x2029) || decide (c.toNat = 0x202F) ||
  decide (c.toNat = 0x205F) || decide (c.toNat = 0x3000)

/-- Fuel-indexed engine for re.sub with a one-space replacement: the matcher m
gives the length of the regex match starting at the current position, 0 when
no match starts there.  The fuel only serves to make the definition
structurally recursive; it is always instantiated with the input length. -/

def scanSubF (m : List Char → Nat) : Nat → List Char → List Char
  | 0, l => l
  | _ + 1, [] => []
  | fuel + 1, c :: cs =>
    if 0 < m (c :: cs) then ' ' :: scanSubF m fuel (List.drop (m (c :: cs)) (c :: cs))
    else c :: scanSubF m fuel cs

/-- Left-to-right, non-overlapping regex substitution by a single space, as
re.sub performs for the patterns used in clean_text. -/

def scanSub (m : List Char → Nat) (l : List Char) : List Char :=
  scanSubF m l.length l

/-- Test for a non-space first character (how the regex engine checks that a
greedy non-space run of positive length can start here). -/

def headNonSpace : List Char → Bool
  | [] => false
  | c :: _ => !pySpace c

/-- Length of the match of the first clean_text pattern (a literal http, or
www followed by a dot, then one or more non-space characters, greedily) at the
head of the list; 0 when it does not match there. -/

def urlLen (l : List Char) : Nat :=
  if (List.take 4 l = ['h', 't', 't', 'p'] ∨ List.take 4 l = ['w', 'w', 'w', '.']) ∧
      headNonSpace (List.drop 4 l) = true then
    4 + (List.takeWhile (fun c => !pySpace c) (List.drop 4 l)).length
  else 0

/-- Length of the match of the second clean_text pattern (the three escapes
amp, lt, gt written with ampersand and semicolon) at the head of the list. -/

def entLen (l : List Char) : Nat :=
  if List.take 5 l = ['&', 'a', 'm', 'p', ';'] then 5
  else if List.take 4 l = ['&', 'l', 't', ';'] then 4
  else if List.take 4 l = ['&', 'g', 't', ';'] then 4
  else 0

/-- Length of the maximal whitespace run at the head of the list, the match
length of the third clean_text pattern. -/

def wsLen (l : List Char) : Nat := (List.takeWhile pySpace l).length

/-- Model of str.strip with no arguments: remove leading and trailing
whitespace. -/

def pyStrip (l : List Char) : List Char :=
  List.reverse (List.dropWhile pySpace (List.reverse (List.dropWhile pySpace l)))

/-- Model of clean_text from src/mainprocess.py: remove URL-like runs, remove
the three HTML escape sequences, collapse whitespace runs to single blanks,
and strip; each regex removal writes a single blank in place of the match. -/

def clean_text (l : List Char) : List Char :=
  pyStrip (scanSub wsLen (scanSub entLen (scanSub urlLen l)))

/-- Residue pattern for the http branch of the URL regex: the four literal
characters followed by one non-space character. -/

def httpPat (d : Char) : List Char := ['h', 't', 't', 'p', d]

/-- Residue pattern for the www branch of the URL regex: www and a dot
followed by one non-space character. -/

def wwwPat (d : Char) : List Char := ['w', 'w', 'w', '.', d]

/-- Escape sequence for an ampersand. -/

def ampPat : List Char := ['&', 'a', 'm', 'p', ';']

/-- Escape sequence for a less-than sign. -/

def ltPat : List Char := ['&', 'l', 't', ';']

/-- Escape sequence for a greater-than sign. -/

def gtPat : List Char := ['&', 'g', 't', ';']

/-- Threshold used by vader_label, the exact value of the source literal
five hundredths. -/

def vaderThreshold : Rat := mkRat 5 100

/-- Model of vader_label from src/mainprocess.py: strict segmentation of the
compound score. -/

def vader_label (c : Rat) : String :=
  if vaderThreshold ≤ c then "Positive"
  else if c ≤ -vaderThreshold then "Negative"
  else "Neutral"

/-- Snippet dictionary carried by a top-level comment or a reply: the fields
mainprocess.py reads, each optional because dict lookups default to None. -/

structure CSnip where
  snipId : Option String
  authorDisplayName : Option String
  textDisplay : Option String
  likeCount : Option Int
  publishedAt : Option String
deriving DecidableEq

/-- Comment node as the API returns it: an id field sibling to a snippet. -/

structure CommentNode where
  nodeId : Option String
  snippet : CSnip
deriving DecidableEq

/-- One item of a commentThreads response: the top-level comment and the
replies (an absent replies key is the empty list). -/

structure Item where
  topLevelComment : CommentNode
  replies : List CommentNode
deriving DecidableEq

/-- One successful commentThreads page. -/

structure Page where
  items : List Item
  nextPageToken : Option String
deriving DecidableEq

/-- Result of one execute call on the commentThreads request: a page, or an
HttpError raised. -/

inductive ApiResult where
  | ok (p : Page)
  | err
deriving DecidableEq

/-- Python or-fallback on optional strings: the left value unless it is
falsy, that is absent or empty. -/

def pyOr (a b : Option String) : Option String :=
  match a with
  | some s => if s = "" then b else some s
  | none => b

/-- Flat comment record appended by fetch_comments, with the raw snippet
carried along in the raw column. -/

structure RawComment where
  comment_id : Option String
  author : Option String
  comment : Option String
  likes : Int
  published : Option String
  video_id : String
  parent_id : Option String
  raw : CSnip
deriving DecidableEq

/-- Records contributed by one response item: the top-level comment followed
by its replies, as the two append sites of fetch_comments build them. -/

def itemRecords (v : String) (it : Item) : List RawComment :=
  let tlc := it.topLevelComment
  let top_id := pyOr tlc.nodeId tlc.snippet.snipId
  { comment_id := top_id
    author := tlc.snippet.authorDisplayName
    comment := tlc.snippet.textDisplay
    likes := tlc.snippet.likeCount.getD 0
    published := tlc.snippet.publishedAt
    video_id := v
    parent_id := none
    raw := tlc.snippet } ::
  it.replies.map (fun r =>
    { comment_id := pyOr r.nodeId r.snippet.snipId
      author := r.snippet.authorDisplayName
      comment := r.snippet.textDisplay
      likes := r.snippet.likeCount.getD 0
      published := r.snippet.publishedAt
      video_id := v
      parent_id := top_id
      raw := r.snippet })

/-- Python truthiness of the optional next-page token: absent and empty are
falsy. -/

def tokenTruthy : Option String → Bool
  | none => false
  | some s => !(s == "")

/-- Python truthiness of max_pages combined with the page comparison: the
value is falsy when None or zero, otherwise the page count is compared. -/

def maxPagesHit (mp : Option Int) (page : Nat) : Bool :=
  match mp with
  | none => false
  | some m => !(m == 0) && decide (m ≤ (page : Int))

/-- Why the pagination loop stopped. -/

inductive StopReason where
  | capReached
  | noToken
  | maxPagesStop
  | httpFailure
  | outOfResponses
deriving DecidableEq

/-- State of the loop when it stops: accumulated records before slicing, the
stop reason, and the number of five-second retry sleeps performed. -/

structure FetchEnd where
  acc : List RawComment
  reason : StopReason
  sleeps5 : Nat
deriving DecidableEq

/-- Continuation decision of one iteration of the while loop. -/

inductive StepOut where
  | stop (e : FetchEnd)
  | next (acc : List RawComment) (page : Nat) (sl : Nat)
deriving DecidableEq

/-- Body of the while loop once a page is in hand: append the records of
every item, advance the page counter, stop on the comment cap, then on a
falsy token or a reached max_pages, else continue. -/

def pageStep (v : String) (mp : Option Int) (mc : Nat) (p : Page)
    (acc : List RawComment) (page : Nat) (sl : Nat) : StepOut :=
  let acc' := acc ++ (p.items.map (itemRecords v)).flatten
  let page' := page + 1
  if mc ≤ acc'.length then .stop ⟨acc', .capReached, sl⟩
  else if !tokenTruthy p.nextPageToken then .stop ⟨acc', .noToken, sl⟩
  else if maxPagesHit mp page' then .stop ⟨acc', .maxPagesStop, sl⟩
  else .next acc' page' sl

/-- Pagination loop of fetch_comments over the sequence of per-call results:
an HttpError is retried once after a five-second sleep, and a second failure
breaks out of the loop with the records accumulated so far. -/

def fetchLoop (v : String) (mp : Option Int) (mc : Nat) :
    List ApiResult → List RawComment → Nat → Nat → FetchEnd
  | [], acc, _, sl => ⟨acc, .outOfResponses, sl⟩
  | .ok p :: rest, acc, page, sl =>
    match pageStep v mp mc p acc page sl with
    | .stop e => e
    | .next acc' page' sl' => fetchLoop v mp mc rest acc' page' sl'
  | .err :: .ok p :: rest, acc, page, sl =>
    match pageStep v mp mc p acc page (sl + 1) with
    | .stop e => e
    | .next acc' page' sl' => fetchLoop v mp mc rest acc' page' sl'
  | .err :: .err :: _, acc, _, sl => ⟨acc, .httpFailure, sl + 1⟩
  | [.err], acc, _, sl => ⟨acc, .outOfResponses, sl + 1⟩

/-- Outcome of fetch_comments: the returned list sliced to max_comments, the
accumulator size before slicing, the stop reason, and the number of
five-second sleeps. -/

structure FetchResult where
  comments : List RawComment
  rawCount : Nat
  reason : StopReason
  sleeps5 : Nat
deriving DecidableEq

/-- Model of fetch_comments from src/mainprocess.py. -/

def fetch_comments (v : String) (api : List ApiResult) (mp : Option Int)
    (mc : Nat) : FetchResult :=
  let e := fetchLoop v mp mc api [] 0 0
  ⟨e.acc.take mc, e.acc.length, e.reason, e.sleeps5⟩

/-- Fuel-indexed engine for drop_duplicates keeping first occurrences. -/

def dedupByF (key : RawComment → Option String) : Nat → List RawComment → List RawComment
  | 0, l => l
  | _ + 1, [] => []
  | fuel + 1, x :: xs =>
    x :: dedupByF key fuel (xs.filter (fun y => !(key y == key x)))

/-- Model of DataFrame.drop_duplicates on one key column: keep the first row
for each key value, preserving order. -/

def dedupBy (key : RawComment → Option String) (l : List RawComment) : List RawComment :=
  dedupByF key l.length l

/-- Four lexicon sub-scores returned by polarity_scores, as exact rationals. -/

structure VaderScores where
  neg : Rat
  neu : Rat
  pos : Rat
  compound : Rat
deriving DecidableEq

/-- Processed row of the table run persists: the raw columns together with
the derived clean_comment, lang, score columns and sentiment label. -/

structure ProcRow where
  base : RawComment
  clean_comment : List Char
  lang : String
  scores : VaderScores
  sentiment_vader : String
deriving DecidableEq

/-- Model of safe_lang from src/mainprocess.py, over an abstract language
detector that may fail: empty or whitespace-only input short-circuits to
unknown, and a detector exception is caught and mapped to unknown. -/

def safe_lang (det : List Char → Except Unit String) (s : List Char) : String :=
  if pyStrip s = [] then "unknown"
  else
    match det s with
    | .ok lang => lang
    | .error _ => "unknown"

/-- Derived columns run computes for one deduplicated row: fillna with the
empty string then clean_text, language detection on the cleaned text,
polarity scores on the cleaned text, and the label on the compound score. -/

def deriveRow (det : List Char → Except Unit String) (score : List Char → VaderScores)
    (c : RawComment) : ProcRow :=
  let cc := clean_text (c.comment.getD ("")).toList
  { base := c
    clean_comment := cc
    lang := safe_lang det cc
    scores := score cc
    sentiment_vader := vader_label (score cc).compound }

/-- Model of the DataFrame pipeline of run between fetch and persist:
drop_duplicates on comment_id first, then the derived columns per row. -/

def processRows (det : List Char → Except Unit String)
    (score : List Char → VaderScores) (comments : List RawComment) : List ProcRow :=
  (dedupBy (fun c => c.comment_id) comments).map (deriveRow det score)

/-- Join with single blanks, as the whitespace join in make_wordcloud. -/

def joinBlanks (l : List (List Char)) : List Char := List.intercalate [' '] l

/-- Text make_wordcloud builds: keep entries whose strip is longer than one
character, lowercase them, join with blanks. -/

def wordcloudText (texts : List (List Char)) : List Char :=
  joinBlanks ((texts.filter (fun t => 1 < (pyStrip t).length)).map (List.map Char.toLower))

/-- Whether make_wordcloud writes a file: it skips when the joined text
strips to nothing. -/

def makesWordcloud (texts : List (List Char)) : Bool :=
  !(pyStrip (wordcloudText texts) == [])

/-- Directory of raw fetch dumps. -/

def RAW_DIR : String := "data/raw"

/-- Directory of processed tables. -/

def PROC_DIR : String := "data/processed"

/-- Directory of KPI exports and images. -/

def OUT_DIR : String := "data/outputs"

/-- Name of the raw JSON file run writes. -/

def rawFileName (v : String) (ts : Nat) : String :=
  "comments_" ++ v ++ "_" ++ toString ts ++ ".json"

/-- Name of the processed csv file run writes. -/

def procFileName (v : String) (ts : Nat) : String :=
  "processed_" ++ v ++ "_" ++ toString ts ++ ".csv"

/-- Name of the KPI csv file run writes. -/

def kpiFileName (v : String) (ts : Nat) : String :=
  "kpi_" ++ v ++ "_" ++ toString ts ++ ".csv"

/-- Name of the positive wordcloud image run writes. -/

def wcPosFileName (v : String) (ts : Nat) : String :=
  "wordcloud_positive_" ++ v ++ "_" ++ toString ts ++ ".png"

/-- Name of the negative wordcloud image run writes. -/

def wcNegFileName (v : String) (ts : Nat) : String :=
  "wordcloud_negative_" ++ v ++ "_" ++ toString ts ++ ".png"

/-- Successful outcome of run: the writes in order, the processed table and
the returned csv path. -/

structure RunOut where
  writes : List (String × String)
  table : List ProcRow
  returned : String × String
deriving DecidableEq

/-- Outcome of run: either the message of the RuntimeError raised on an
empty fetch, or the success record. -/

inductive RunResult where
  | failed (msg : String)
  | finished (o : RunOut)
deriving DecidableEq

/-- Model of run from src/mainprocess.py: fetch, raise on an empty result
before touching any file, write the raw JSON, dedup and derive the table,
write the processed csv, write the KPI csv, and write each wordcloud image
unless its text is empty after filtering.  The first component lists the
(directory, filename) pairs written, in order. -/

def run (v : String) (ts : Nat) (api : List ApiResult) (mp : Option Int) (mc : Nat)
    (det : List Char → Except Unit String) (score : List Char → VaderScores) :
    List (String × String) × RunResult :=
  let comments := (fetch_comments v api mp mc).comments
  if comments = [] then
    ([], .failed ("No comments fetched - check video id or API quota."))
  else
    let table := processRows det score comments
    let posTexts := (table.filter (fun r => r.sentiment_vader == "Positive")).map
      (fun r => r.clean_comment)
    let negTexts := (table.filter (fun r => r.sentiment_vader == "Negative")).map
      (fun r => r.clean_comment)
    let writes :=
      [(RAW_DIR, rawFileName v ts), (PROC_DIR, procFileName v ts),
        (OUT_DIR, kpiFileName v ts)] ++
      (if makesWordcloud posTexts then [(OUT_DIR, wcPosFileName v ts)] else []) ++
      (if makesWordcloud negTexts then [(OUT_DIR, wcNegFileName v ts)] else [])
    (writes, .finished ⟨writes, table, (PROC_DIR, procFileName v ts)⟩)

/-- Lexicographic code-point comparison of character data, the ordering the
Python sorted builtin uses on file names. -/

def lexLe : List Char → List Char → Bool
  | [], _ => true
  | _ :: _, [] => false
  | a :: as, b :: bs =>
    if a < b then true
    else if b < a then false
    else lexLe as bs

/-- Ordering of file names by their character data. -/

def nameLe (a b : String) : Prop := lexLe a.data b.data = true

instance : DecidableRel nameLe := fun a b => by
  rw [nameLe]
  infer_instance

/-- Whether a file name matches the glob pattern for processed csv files:
the marker at the front, the csv extension at the back, with no overlap. -/

def matchesProcessed (f : String) : Prop :=
  "processed_".data <+: f.data ∧ ".csv".data <:+ f.data ∧ 14 ≤ f.data.length

instance : DecidablePred matchesProcessed := fun f => by
  rw [matchesProcessed]
  infer_instance

/-- Shared reader logic of load_latest_processed in analyze_eval, the
dashboard file pick in app_streamlit, and the file pick of check_processed:
glob the processed csv names, sort ascending, take the last. -/

def load_latest_processed (files : List String) : Option String :=
  (List.insertionSort nameLe (files.filter (fun f => decide (matchesProcessed f)))).getLast?

/-- Table of a run outcome: empty when the run raised. -/

def resultTable : RunResult → List ProcRow
  | .failed _ => []
  | .finished o => o.table

/-- Detector used in concrete runs: always reports English. -/

def detEn : List Char → Except Unit String := fun _ => Except.ok ("en")

/-- Detector used in concrete runs: always raises. -/

def detFail : List Char → Except Unit String := fun _ => Except.error ()

/-- Scorer used in concrete runs: a fixed mildly positive score. -/

def scorePos : List Char → VaderScores := fun _ => ⟨0, 0, 0, mkRat 6 100⟩

/-- Scorer used in concrete runs: all zero. -/

def scoreZero : List Char → VaderScores := fun _ => ⟨0, 0, 0, 0⟩

/-- Snippet of the first sample comment. -/

def snipA : CSnip := ⟨none, some ("alice"), some ("hello"), some 3, some ("2024-01-01")⟩

/-- Node of the first sample comment. -/

def nodeA : CommentNode := ⟨some ("c1"), snipA⟩

/-- Item of the first sample comment, no replies. -/

def itemA : Item := ⟨nodeA, []⟩

/-- Snippet of the second sample comment. -/

def snipB : CSnip := ⟨none, some ("bob"), some ("bye"), none, none⟩

/-- Node of the second sample comment. -/

def nodeB : CommentNode := ⟨some ("c2"), snipB⟩

/-- Item of the second sample comment, no replies. -/

def itemB : Item := ⟨nodeB, []⟩

/-- Two-page response sequence with a truthy token on the first page. -/

def apiTwoPages : List ApiResult :=
  [.ok ⟨[itemA], some ("T")⟩, .ok ⟨[itemB], none⟩]

/-- Single page carrying no items. -/

def apiEmptyPage : List ApiResult := [.ok ⟨[], none⟩]

/-- Single page repeating the first comment, to exercise deduplication. -/

def apiDup : List ApiResult := [.ok ⟨[itemA, itemA, itemB], none⟩]

theorem scanSubF_nil (m : List Char → Nat) : ∀ f, scanSubF m f [] = []
  | 0 => rfl
  | _ + 1 => rfl

theorem scanSubF_fuel (m : List Char → Nat) :
    ∀ f g l, l.length ≤ f → l.length ≤ g → scanSubF m f l = scanSubF m g l := by
  intro f
  induction f with
  | zero =>
    intro g l hf _
    have hl : l = [] := by cases l <;> simp_all
    subst hl
    simp [scanSubF_nil]
  | succ f ih =>
    intro g l hf hg
    cases l with
    | nil => simp [scanSubF_nil]
    | cons c cs =>
      cases g with
      | zero => simp at hg
      | succ g =>
        show scanSubF m (f + 1) (c :: cs) = scanSubF m (g + 1) (c :: cs)
        simp only [scanSubF]
        by_cases h : 0 < m (c :: cs)
        · rw [if_pos h, if_pos h]
          have hlen : (List.drop (m (c :: cs)) (c :: cs)).length ≤ f := by
            rw [List.length_drop]
            simp only [List.length_cons] at hf ⊢
            omega
          have hlen' : (List.drop (m (c :: cs)) (c :: cs)).length ≤ g := by
            rw [List.length_drop]
            simp only [List.length_cons] at hg ⊢
            omega
          rw [ih _ _ hlen hlen']
        · rw [if_neg h, if_neg h]
          have hlen : cs.length ≤ f := by simp only [List.length_cons] at hf; omega
          have hlen' : cs.length ≤ g := by simp only [List.length_cons] at hg; omega
          rw [ih _ _ hlen hlen']

theorem scanSub_cons_pos (m : List Char → Nat) (c : Char) (cs : List Char)
    (h : 0 < m (c :: cs)) :
    scanSub m (c :: cs) = ' ' :: scanSub m (List.drop (m (c :: cs)) (c :: cs)) := by
  show scanSubF m (cs.length + 1) (c :: cs) = _
  simp only [scanSubF, if_pos h]
  congr 1
  apply scanSubF_fuel
  · rw [List.length_drop]
    simp only [List.length_cons]
    omega
  · exact le_rfl

theorem scanSub_cons_zero (m : List Char → Nat) (c : Char) (cs : List Char)
    (h : m (c :: cs) = 0) :
    scanSub m (c :: cs) = c :: scanSub m cs := by
  show scanSubF m (cs.length + 1) (c :: cs) = _
  simp only [scanSubF, h]
  rfl

/-- Strong induction principle following the recursion pattern of scanSub. -/
theorem scanSub_induction (m : List Char → Nat) (P : List Char → Prop)
    (h0 : P [])
    (hpos : ∀ c cs, 0 < m (c :: cs) → P (List.drop (m (c :: cs)) (c :: cs)) → P (c :: cs))
    (hzero : ∀ c cs, m (c :: cs) = 0 → P cs → P (c :: cs)) :
    ∀ l, P l := by
  have key : ∀ n l, l.length ≤ n → P l := by
    intro n
    induction n with
    | zero =>
      intro l h
      cases l with
      | nil => exact h0
      | cons c cs => simp at h
    | succ n ih =>
      intro l h
      cases l with
      | nil => exact h0
      | cons c cs =>
        by_cases hm : 0 < m (c :: cs)
        · refine hpos c cs hm (ih _ ?_)
          rw [List.length_drop]
          simp only [List.length_cons] at h ⊢
          omega
        · refine hzero c cs (by omega) (ih cs ?_)
          simp only [List.length_cons] at h
          omega
  exact fun l => key l.length l le_rfl

/-- Space-free prefixes of the output of a substitution pass were already
prefixes of the input: every emitted character is either a copied input
character or a blank. -/
theorem scanSub_sf_pref (m : List Char → Nat) :
    ∀ l, ∀ w : List Char, (∀ c ∈ w, pySpace c = false) →
      w <+: scanSub m l → w <+: l := by
  refine scanSub_induction m _ ?_ ?_ ?_
  · intro w _ h
    rwa [scanSub] at h
  · intro c cs _ _ w hw h
    rw [scanSub_cons_pos m c cs (by assumption)] at h
    rcases List.prefix_cons_iff.mp h with h' | ⟨w', hw', _⟩
    · simp [h']
    · exfalso
      have : pySpace ' ' = false := hw ' ' (by simp [hw'])
      simp [pySpace] at this
  · intro c cs hm ih w hw h
    rw [scanSub_cons_zero m c cs hm] at h
    rcases List.prefix_cons_iff.mp h with h' | ⟨w', hw', hpre⟩
    · simp [h']
    · subst hw'
      have : w' <+: cs := ih w' (fun x hx => hw x (by simp [hx])) hpre
      exact List.prefix_cons_iff.mpr (Or.inr ⟨w', rfl, this⟩)

/-- Space-free parts occurring anywhere in the output of a substitution pass
already occurred in the input. -/
theorem scanSub_sf_infx (m : List Char → Nat) :
    ∀ l, ∀ w : List Char, (∀ c ∈ w, pySpace c = false) →
      w <:+: scanSub m l → w <:+: l := by
  refine scanSub_induction m _ ?_ ?_ ?_
  · intro w _ h
    rwa [scanSub] at h
  · intro c cs hm ih w hw h
    rw [scanSub_cons_pos m c cs hm] at h
    rcases List.infix_cons_iff.mp h with h' | h'
    · rcases List.prefix_cons_iff.mp h' with h'' | ⟨w', hw', _⟩
      · simp [h'']
      · exfalso
        have : pySpace ' ' = false := hw ' ' (by simp [hw'])
        simp [pySpace] at this
    · have : w <:+: List.drop (m (c :: cs)) (c :: cs) := ih w hw h'
      exact this.trans (List.drop_suffix _ _).isInfix
  · intro c cs hm ih w hw h
    rw [scanSub_cons_zero m c cs hm] at h
    rcases List.infix_cons_iff.mp h with h' | h'
    · rcases List.prefix_cons_iff.mp h' with h'' | ⟨w', hw', hpre⟩
      · simp [h'']
      · subst hw'
        have : w' <+: cs := scanSub_sf_pref m cs w' (fun x hx => hw x (by simp [hx])) hpre
        exact (List.prefix_cons_iff.mpr (Or.inr ⟨w', rfl, this⟩)).isInfix
    · exact (ih w hw h').trans (List.suffix_cons c cs).isInfix

theorem urlLen_pos_http (d : Char) (rest : List Char) (hd : pySpace d = false) :
    0 < urlLen ('h' :: 't' :: 't' :: 'p' :: d :: rest) := by
  rw [urlLen, if_pos]
  · omega
  · exact ⟨Or.inl (by simp), by simp [headNonSpace, hd]⟩

theorem urlLen_pos_www (d : Char) (rest : List Char) (hd : pySpace d = false) :
    0 < urlLen ('w' :: 'w' :: 'w' :: '.' :: d :: rest) := by
  rw [urlLen, if_pos]
  · omega
  · exact ⟨Or.inr (by simp), by simp [headNonSpace, hd]⟩

theorem entLen_pos_amp (rest : List Char) : 0 < entLen (ampPat ++ rest) := by
  simp [entLen, ampPat]

theorem entLen_pos_lt (rest : List Char) : 0 < entLen (ltPat ++ rest) := by
  simp [entLen, ltPat]

theorem entLen_pos_gt (rest : List Char) : 0 < entLen (gtPat ++ rest) := by
  simp [entLen, gtPat]

theorem sfNil : ∀ c ∈ ([] : List Char), pySpace c = false := by simp

theorem sfCons (x : Char) (l : List Char) (hx : pySpace x = false)
    (hl : ∀ c ∈ l, pySpace c = false) : ∀ c ∈ x :: l, pySpace c = false := by
  intro c hc
  rcases List.mem_cons.mp hc with rfl | hc
  · exact hx
  · exact hl c hc

/-- Output of the URL pass contains no occurrence of either URL marker
followed by a non-space character. -/
theorem subURLs_no_url : ∀ l, ∀ d, pySpace d = false →
    ¬ (httpPat d <:+: scanSub urlLen l) ∧ ¬ (wwwPat d <:+: scanSub urlLen l) := by
  refine scanSub_induction urlLen _ ?_ ?_ ?_
  · intro d _
    constructor
    · intro h
      simp [scanSub, scanSubF, httpPat] at h
    · intro h
      simp [scanSub, scanSubF, wwwPat] at h
  · intro c cs hm ih d hd
    rw [scanSub_cons_pos urlLen c cs hm]
    constructor
    · intro h
      rcases List.infix_cons_iff.mp h with h' | h'
      · rcases List.prefix_cons_iff.mp h' with h'' | ⟨w', hw', _⟩
        · simp [httpPat] at h''
        · simp [httpPat] at hw'
      · exact (ih d hd).1 h'
    · intro h
      rcases List.infix_cons_iff.mp h with h' | h'
      · rcases List.prefix_cons_iff.mp h' with h'' | ⟨w', hw', _⟩
        · simp [wwwPat] at h''
        · simp [wwwPat] at hw'
      · exact (ih d hd).2 h'
  · intro c cs hm ih d hd
    rw [scanSub_cons_zero urlLen c cs hm]
    constructor
    · intro h
      rcases List.infix_cons_iff.mp h with h' | h'
      · rcases List.prefix_cons_iff.mp h' with h'' | ⟨w', hw', hpre⟩
        · simp [httpPat] at h''
        · rw [httpPat] at hw'
          injection hw' with hc hw''
          subst hc
          subst hw''
          have hsf : ∀ x ∈ (['t', 't', 'p', d] : List Char), pySpace x = false :=
            sfCons _ _ (by decide) (sfCons _ _ (by decide)
              (sfCons _ _ (by decide) (sfCons _ _ hd sfNil)))
          have hcs : ['t', 't', 'p', d] <+: cs := scanSub_sf_pref urlLen cs _ hsf hpre
          obtain ⟨rest, hrest⟩ := hcs
          rw [← hrest] at hm
          have := urlLen_pos_http d rest hd
          simp only [List.cons_append, List.nil_append] at hm this
          omega
      · exact (ih d hd).1 h'
    · intro h
      rcases List.infix_cons_iff.mp h with h' | h'
      · rcases List.prefix_cons_iff.mp h' with h'' | ⟨w', hw', hpre⟩
        · simp [wwwPat] at h''
        · rw [wwwPat] at hw'
          injection hw' with hc hw''
          subst hc
          subst hw''
          have hsf : ∀ x ∈ (['w', 'w', '.', d] : List Char), pySpace x = false :=
            sfCons _ _ (by decide) (sfCons _ _ (by decide)
              (sfCons _ _ (by decide) (sfCons _ _ hd sfNil)))
          have hcs : ['w', 'w', '.', d] <+: cs := scanSub_sf_pref urlLen cs _ hsf hpre
          obtain ⟨rest, hrest⟩ := hcs
          rw [← hrest] at hm
          have := urlLen_pos_www d rest hd
          simp only [List.cons_append, List.nil_append] at hm this
          omega
      · exact (ih d hd).2 h'

/-- Output of the escape pass contains none of the three escape sequences. -/
theorem subEnts_no_ent : ∀ l,
    ¬ (ampPat <:+: scanSub entLen l) ∧ ¬ (ltPat <:+: scanSub entLen l) ∧
    ¬ (gtPat <:+: scanSub entLen l) := by
  refine scanSub_induction entLen _ ?_ ?_ ?_
  · refine ⟨?_, ?_, ?_⟩
    · intro h
      simp [scanSub, scanSubF, ampPat] at h
    · intro h
      simp [scanSub, scanSubF, ltPat] at h
    · intro h
      simp [scanSub, scanSubF, gtPat] at h
  · intro c cs hm ih
    rw [scanSub_cons_pos entLen c cs hm]
    refine ⟨?_, ?_, ?_⟩
    · intro h
      rcases List.infix_cons_iff.mp h with h' | h'
      · rcases List.prefix_cons_iff.mp h' with h'' | ⟨w', hw', _⟩
        · simp [ampPat] at h''
        · simp [ampPat] at hw'
      · exact ih.1 h'
    · intro h
      rcases List.infix_cons_iff.mp h with h' | h'
      · rcases List.prefix_cons_iff.mp h' with h'' | ⟨w', hw', _⟩
        · simp [ltPat] at h''
        · simp [ltPat] at hw'
      · exact ih.2.1 h'
    · intro h
      rcases List.infix_cons_iff.mp h with h' | h'
      · rcases List.prefix_cons_iff.mp h' with h'' | ⟨w', hw', _⟩
        · simp [gtPat] at h''
        · simp [gtPat] at hw'
      · exact ih.2.2 h'
  · intro c cs hm ih
    rw [scanSub_cons_zero entLen c cs hm]
    refine ⟨?_, ?_, ?_⟩
    · intro h
      rcases List.infix_cons_iff.mp h with h' | h'
      · rcases List.prefix_cons_iff.mp h' with h'' | ⟨w', hw', hpre⟩
        · simp [ampPat] at h''
        · rw [ampPat] at hw'
          injection hw' with hc hw''
          subst hc
          subst hw''
          have hsf : ∀ x ∈ (['a', 'm', 'p', ';'] : List Char), pySpace x = false :=
            sfCons _ _ (by decide) (sfCons _ _ (by decide)
              (sfCons _ _ (by decide) (sfCons _ _ (by decide) sfNil)))
          have hcs : ['a', 'm', 'p', ';'] <+: cs := scanSub_sf_pref entLen cs _ hsf hpre
          obtain ⟨rest, hrest⟩ := hcs
          rw [← hrest] at hm
          have := entLen_pos_amp rest
          simp only [ampPat, List.cons_append, List.nil_append] at hm this
          omega
      · exact ih.1 h'
    · intro h
      rcases List.infix_cons_iff.mp h with h' | h'
      · rcases List.prefix_cons_iff.mp h' with h'' | ⟨w', hw', hpre⟩
        · simp [ltPat] at h''
        · rw [ltPat] at hw'
          injection hw' with hc hw''
          subst hc
          subst hw''
          have hsf : ∀ x ∈ (['l', 't', ';'] : List Char), pySpace x = false :=
            sfCons _ _ (by decide) (sfCons _ _ (by decide)
              (sfCons _ _ (by decide) sfNil))
          have hcs : ['l', 't', ';'] <+: cs := scanSub_sf_pref entLen cs _ hsf hpre
          obtain ⟨rest, hrest⟩ := hcs
          rw [← hrest] at hm
          have := entLen_pos_lt rest
          simp only [ltPat, List.cons_append, List.nil_append] at hm this
          omega
      · exact ih.2.1 h'
    · intro h
      rcases List.infix_cons_iff.mp h with h' | h'
      · rcases List.prefix_cons_iff.mp h' with h'' | ⟨w', hw', hpre⟩
        · simp [gtPat] at h''
        · rw [gtPat] at hw'
          injection hw' with hc hw''
          subst hc
          subst hw''
          have hsf : ∀ x ∈ (['g', 't', ';'] : List Char), pySpace x = false :=
            sfCons _ _ (by decide) (sfCons _ _ (by decide)
              (sfCons _ _ (by decide) sfNil))
          have hcs : ['g', 't', ';'] <+: cs := scanSub_sf_pref entLen cs _ hsf hpre
          obtain ⟨rest, hrest⟩ := hcs
          rw [← hrest] at hm
          have := entLen_pos_gt rest
          simp only [gtPat, List.cons_append, List.nil_append] at hm this
          omega
      · exact ih.2.2 h'

theorem head_dropWhile_not (p : Char → Bool) (l : List Char) (c : Char)
    (h : (l.dropWhile p).head? = some c) : p c = false := by
  induction l with
  | nil => simp at h
  | cons x xs ih =>
    by_cases hx : p x
    · rw [List.dropWhile_cons_of_pos hx] at h
      exact ih h
    · rw [List.dropWhile_cons_of_neg hx] at h
      simp at h
      subst h
      simpa using hx

theorem wsLen_zero_head (c : Char) (cs : List Char) (h : wsLen (c :: cs) = 0) :
    pySpace c = false := by
  by_cases hp : pySpace c = true
  · rw [wsLen, List.takeWhile_cons, if_pos hp] at h
    simp at h
  · simpa using hp

theorem drop_wsLen (l : List Char) : List.drop (wsLen l) l = List.dropWhile pySpace l := by
  induction l with
  | nil => rfl
  | cons c cs ih =>
    by_cases hp : pySpace c = true
    · rw [wsLen, List.takeWhile_cons, if_pos hp]
      simp only [List.length_cons, List.drop_succ_cons]
      rw [List.dropWhile_cons_of_pos hp]
      exact ih
    · rw [wsLen, List.takeWhile_cons, if_neg hp]
      simp only [List.length_nil, List.drop_zero]
      rw [List.dropWhile_cons_of_neg hp]

/-- Whitespace characters surviving the collapse pass are single blanks. -/
theorem collapse_all_blank : ∀ l, ∀ c ∈ scanSub wsLen l, pySpace c = true → c = ' ' := by
  refine scanSub_induction wsLen _ ?_ ?_ ?_
  · intro c hc
    simp [scanSub, scanSubF] at hc
  · intro c cs hm ih x hx hxs
    rw [scanSub_cons_pos wsLen c cs hm] at hx
    rcases List.mem_cons.mp hx with rfl | hx
    · rfl
    · exact ih x hx hxs
  · intro c cs hm ih x hx hxs
    rw [scanSub_cons_zero wsLen c cs hm] at hx
    rcases List.mem_cons.mp hx with rfl | hx
    · rw [wsLen_zero_head _ cs hm] at hxs
      exact absurd hxs (by simp)
    · exact ih x hx hxs

/-- The collapse pass keeps a non-space head non-space. -/
theorem collapse_head (l : List Char) (h : ∀ x, l.head? = some x → pySpace x = false) :
    ∀ x, (scanSub wsLen l).head? = some x → pySpace x = false := by
  cases l with
  | nil =>
    intro x hx
    simp [scanSub, scanSubF] at hx
  | cons c cs =>
    have hc : pySpace c = false := h c rfl
    have hm : wsLen (c :: cs) = 0 := by
      rw [wsLen, List.takeWhile_cons, if_neg (by simp [hc])]
      rfl
    rw [scanSub_cons_zero wsLen c cs hm]
    intro x hx
    rw [List.head?_cons] at hx
    injection hx with hx
    subst hx
    exact hc

/-- No two adjacent whitespace characters survive the collapse pass. -/
theorem collapse_no_two : ∀ l, ∀ c d, pySpace c = true → pySpace d = true →
    ¬ ([c, d] <:+: scanSub wsLen l) := by
  refine scanSub_induction wsLen _ ?_ ?_ ?_
  · intro c d _ _ h
    simp [scanSub, scanSubF] at h
  · intro c cs hm ih x y hx hy h
    rw [scanSub_cons_pos wsLen c cs hm] at h
    rcases List.infix_cons_iff.mp h with h' | h'
    · rcases List.prefix_cons_iff.mp h' with h'' | ⟨w', hw', hpre⟩
      · simp at h''
      · injection hw' with h1 h2
        subst h1
        subst h2
        have hd : ∀ z, (scanSub wsLen (List.drop (wsLen (c :: cs)) (c :: cs))).head? =
            some z → pySpace z = false := by
          apply collapse_head
          rw [drop_wsLen]
          intro z hz
          exact head_dropWhile_not pySpace (c :: cs) z hz
        have hhd : (scanSub wsLen (List.drop (wsLen (c :: cs)) (c :: cs))).head? = some y := by
          obtain ⟨t, ht⟩ := hpre
          rw [← ht]
          rfl
        rw [hd y hhd] at hy
        exact absurd hy (by simp)
    · exact ih x y hx hy h'
  · intro c cs hm ih x y hx hy h
    rw [scanSub_cons_zero wsLen c cs hm] at h
    rcases List.infix_cons_iff.mp h with h' | h'
    · rcases List.prefix_cons_iff.mp h' with h'' | ⟨w', hw', hpre⟩
      · simp at h''
      · injection hw' with h1 h2
        subst h1
        rw [wsLen_zero_head _ cs hm] at hx
        exact absurd hx (by simp)
    · exact ih x y hx hy h'

theorem prefix_head_eq (w l : List Char) (c : Char) (hw : w <+: l) (hc : w.head? = some c) :
    l.head? = some c := by
  obtain ⟨t, rfl⟩ := hw
  cases w with
  | nil => simp at hc
  | cons a w' => simpa using hc

theorem suffix_getLast_eq (w l : List Char) (c : Char) (hw : w <:+ l)
    (hc : w.getLast? = some c) : l.getLast? = some c := by
  obtain ⟨t, rfl⟩ := hw
  cases w with
  | nil => simp at hc
  | cons a w' =>
    rw [List.getLast?_append_of_ne_nil _ (by simp)]
    exact hc

theorem pyStrip_head (l : List Char) : ∀ c, (pyStrip l).head? = some c → pySpace c = false := by
  intro c hc
  rw [pyStrip, List.head?_reverse] at hc
  have hsuf : List.dropWhile pySpace (List.reverse (List.dropWhile pySpace l)) <:+
      List.reverse (List.dropWhile pySpace l) := List.dropWhile_suffix _
  have h2 : (List.reverse (List.dropWhile pySpace l)).getLast? = some c :=
    suffix_getLast_eq _ _ c hsuf hc
  rw [List.getLast?_reverse] at h2
  exact head_dropWhile_not pySpace l c h2

theorem pyStrip_last (l : List Char) : ∀ c, (pyStrip l).getLast? = some c →
    pySpace c = false := by
  intro c hc
  rw [pyStrip, List.getLast?_reverse] at hc
  exact head_dropWhile_not pySpace _ c hc

theorem pyStrip_infx (l : List Char) : pyStrip l <:+: l := by
  have h1 : List.dropWhile pySpace l <:+ l := List.dropWhile_suffix pySpace
  have h2 : List.dropWhile pySpace (List.reverse (List.dropWhile pySpace l)) <:+
      List.reverse (List.dropWhile pySpace l) := List.dropWhile_suffix pySpace
  have h3 : pyStrip l <+: List.dropWhile pySpace l := by
    rw [pyStrip, ← List.reverse_suffix]
    simpa using h2
  exact h3.isInfix.trans h1.isInfix

theorem scanSub_id (m : List Char → Nat) :
    ∀ l, (∀ s, s <:+ l → m s = 0) → scanSub m l = l := by
  refine scanSub_induction m _ ?_ ?_ ?_
  · intro _
    rfl
  · intro c cs hm _ h
    exact absurd (h (c :: cs) (List.suffix_refl _)) (by omega)
  · intro c cs hm ih h
    rw [scanSub_cons_zero m c cs hm]
    rw [ih (fun s hs => h s (hs.trans (List.suffix_cons c cs)))]

theorem urlLen_pos_shape (s : List Char) (h : 0 < urlLen s) :
    ∃ d rest, pySpace d = false ∧
      (s = 'h' :: 't' :: 't' :: 'p' :: d :: rest ∨
       s = 'w' :: 'w' :: 'w' :: '.' :: d :: rest) := by
  rw [urlLen] at h
  by_cases hc : (List.take 4 s = ['h', 't', 't', 'p'] ∨
      List.take 4 s = ['w', 'w', 'w', '.']) ∧ headNonSpace (List.drop 4 s) = true
  · obtain ⟨hc1, hc2⟩ := hc
    cases hd : List.drop 4 s with
    | nil =>
      rw [hd] at hc2
      simp [headNonSpace] at hc2
    | cons d rest =>
      rw [hd] at hc2
      have hdns : pySpace d = false := by simpa [headNonSpace] using hc2
      refine ⟨d, rest, hdns, ?_⟩
      have hs : s = List.take 4 s ++ List.drop 4 s := (List.take_append_drop 4 s).symm
      rcases hc1 with h1 | h1
      · left
        rw [hs, h1, hd]
        rfl
      · right
        rw [hs, h1, hd]
        rfl
  · rw [if_neg hc] at h
    omega

theorem entLen_pos_shape (s : List Char) (h : 0 < entLen s) :
    (∃ rest, s = ampPat ++ rest) ∨ (∃ rest, s = ltPat ++ rest) ∨
    (∃ rest, s = gtPat ++ rest) := by
  rw [entLen] at h
  by_cases h5 : List.take 5 s = ['&', 'a', 'm', 'p', ';']
  · refine Or.inl ⟨List.drop 5 s, ?_⟩
    rw [ampPat]
    conv_lhs => rw [← List.take_append_drop 5 s]
    rw [h5]
  · rw [if_neg h5] at h
    by_cases h4 : List.take 4 s = ['&', 'l', 't', ';']
    · refine Or.inr (Or.inl ⟨List.drop 4 s, ?_⟩)
      rw [ltPat]
      conv_lhs => rw [← List.take_append_drop 4 s]
      rw [h4]
    · rw [if_neg h4] at h
      by_cases h4' : List.take 4 s = ['&', 'g', 't', ';']
      · refine Or.inr (Or.inr ⟨List.drop 4 s, ?_⟩)
        rw [gtPat]
        conv_lhs => rw [← List.take_append_drop 4 s]
        rw [h4']
      · rw [if_neg h4'] at h
        omega

theorem collapse_id : ∀ l : List Char, (∀ c ∈ l, pySpace c = true → c = ' ') →
    (∀ c d, pySpace c = true → pySpace d = true → ¬ ([c, d] <:+: l)) →
    scanSub wsLen l = l := by
  intro l
  induction l with
  | nil =>
    intro _ _
    rfl
  | cons c cs ih =>
    intro hall htwo
    by_cases hp : pySpace c = true
    · have hc : c = ' ' := hall c (by simp) hp
      have htk : List.takeWhile pySpace cs = [] := by
        cases cs with
        | nil => rfl
        | cons d cs' =>
          have hd : pySpace d = false := by
            by_cases hdp : pySpace d = true
            · exact absurd (show [c, d] <:+: c :: d :: cs' from ⟨[], cs', rfl⟩)
                (htwo c d hp hdp)
            · simpa using hdp
          rw [List.takeWhile_cons, if_neg (by simp [hd])]
      have hm : wsLen (c :: cs) = 1 := by
        rw [wsLen, List.takeWhile_cons, if_pos hp, htk]
        rfl
      rw [scanSub_cons_pos wsLen c cs (by omega), hm]
      simp only [List.drop_succ_cons, List.drop_zero]
      rw [ih (fun x hx hxs => hall x (by simp [hx]) hxs)
          (fun x y hx hy hinf => htwo x y hx hy (hinf.trans (List.suffix_cons c cs).isInfix))]
      rw [hc]
    · have hm : wsLen (c :: cs) = 0 := by
        rw [wsLen, List.takeWhile_cons, if_neg hp]
        rfl
      rw [scanSub_cons_zero wsLen c cs hm]
      rw [ih (fun x hx hxs => hall x (by simp [hx]) hxs)
          (fun x y hx hy hinf => htwo x y hx hy (hinf.trans (List.suffix_cons c cs).isInfix))]

theorem pyStrip_id (l : List Char) (hh : ∀ c, l.head? = some c → pySpace c = false)
    (hl : ∀ c, l.getLast? = some c → pySpace c = false) : pyStrip l = l := by
  have h1 : List.dropWhile pySpace l = l := by
    cases l with
    | nil => rfl
    | cons c cs => rw [List.dropWhile_cons_of_neg (by simp [hh c rfl])]
  rw [pyStrip, h1]
  have h2 : List.dropWhile pySpace l.reverse = l.reverse := by
    cases hr : l.reverse with
    | nil => rfl
    | cons c cs =>
      have hc : l.getLast? = some c := by
        rw [← List.head?_reverse, hr]
        rfl
      rw [List.dropWhile_cons_of_neg (by simp [hl c hc])]
  rw [h2, List.reverse_reverse]

/-- Combined guarantees of clean_text: no URL marker followed by a non-space
character, none of the three escape sequences, all surviving whitespace is a
single blank with no two adjacent, and no leading or trailing whitespace. -/
theorem clean_text_props (s : List Char) :
    (∀ d, pySpace d = false →
      ¬ (httpPat d <:+: clean_text s) ∧ ¬ (wwwPat d <:+: clean_text s)) ∧
    (¬ (ampPat <:+: clean_text s) ∧ ¬ (ltPat <:+: clean_text s) ∧
      ¬ (gtPat <:+: clean_text s)) ∧
    (∀ c ∈ clean_text s, pySpace c = true → c = ' ') ∧
    (∀ c d, pySpace c = true → pySpace d = true → ¬ ([c, d] <:+: clean_text s)) ∧
    (∀ c, (clean_text s).head? = some c → pySpace c = false) ∧
    (∀ c, (clean_text s).getLast? = some c → pySpace c = false) := by
  simp only [clean_text]
  refine ⟨?_, ⟨?_, ?_, ?_⟩, ?_, ?_, ?_, ?_⟩
  · intro d hd
    have hsfh : ∀ c ∈ httpPat d, pySpace c = false :=
      sfCons _ _ (by decide) (sfCons _ _ (by decide) (sfCons _ _ (by decide)
        (sfCons _ _ (by decide) (sfCons _ _ hd sfNil))))
    have hsfw : ∀ c ∈ wwwPat d, pySpace c = false :=
      sfCons _ _ (by decide) (sfCons _ _ (by decide) (sfCons _ _ (by decide)
        (sfCons _ _ (by decide) (sfCons _ _ hd sfNil))))
    constructor
    · intro h
      have h1 := h.trans (pyStrip_infx _)
      have h2 := scanSub_sf_infx wsLen _ _ hsfh h1
      have h3 := scanSub_sf_infx entLen _ _ hsfh h2
      exact (subURLs_no_url s d hd).1 h3
    · intro h
      have h1 := h.trans (pyStrip_infx _)
      have h2 := scanSub_sf_infx wsLen _ _ hsfw h1
      have h3 := scanSub_sf_infx entLen _ _ hsfw h2
      exact (subURLs_no_url s d hd).2 h3
  · intro h
    have hsf : ∀ c ∈ ampPat, pySpace c = false :=
      sfCons _ _ (by decide) (sfCons _ _ (by decide) (sfCons _ _ (by decide)
        (sfCons _ _ (by decide) (sfCons _ _ (by decide) sfNil))))
    have h1 := h.trans (pyStrip_infx _)
    have h2 := scanSub_sf_infx wsLen _ _ hsf h1
    exact (subEnts_no_ent (scanSub urlLen s)).1 h2
  · intro h
    have hsf : ∀ c ∈ ltPat, pySpace c = false :=
      sfCons _ _ (by decide) (sfCons _ _ (by decide) (sfCons _ _ (by decide)
        (sfCons _ _ (by decide) sfNil)))
    have h1 := h.trans (pyStrip_infx _)
    have h2 := scanSub_sf_infx wsLen _ _ hsf h1
    exact (subEnts_no_ent (scanSub urlLen s)).2.1 h2
  · intro h
    have hsf : ∀ c ∈ gtPat, pySpace c = false :=
      sfCons _ _ (by decide) (sfCons _ _ (by decide) (sfCons _ _ (by decide)
        (sfCons _ _ (by decide) sfNil)))
    have h1 := h.trans (pyStrip_infx _)
    have h2 := scanSub_sf_infx wsLen _ _ hsf h1
    exact (subEnts_no_ent (scanSub urlLen s)).2.2 h2
  · intro c hc hcs
    have hmem : c ∈ scanSub wsLen (scanSub entLen (scanSub urlLen s)) :=
      (pyStrip_infx _).subset hc
    exact collapse_all_blank _ c hmem hcs
  · intro c d hc hd h
    exact collapse_no_two _ c d hc hd (h.trans (pyStrip_infx _))
  · exact pyStrip_head _
  · exact pyStrip_last _

theorem httpPat_pref (d : Char) (rest : List Char) :
    httpPat d <+: 'h' :: 't' :: 't' :: 'p' :: d :: rest := ⟨rest, rfl⟩

theorem wwwPat_pref (d : Char) (rest : List Char) :
    wwwPat d <+: 'w' :: 'w' :: 'w' :: '.' :: d :: rest := ⟨rest, rfl⟩

/-- Claim C8: clean_text is idempotent. -/
theorem c8_clean_text_idempotent : ∀ s : List Char,
    clean_text (clean_text s) = clean_text s := by
  intro s
  obtain ⟨hurl, hent, hblank, htwo, hhead, hlast⟩ := clean_text_props s
  have h1 : scanSub urlLen (clean_text s) = clean_text s := by
    apply scanSub_id
    intro t ht
    by_contra hpos
    have hp : 0 < urlLen t := Nat.pos_of_ne_zero hpos
    obtain ⟨d, rest, hd, hshape⟩ := urlLen_pos_shape t hp
    rcases hshape with h | h
    · refine (hurl d hd).1 ?_
      refine List.IsInfix.trans ?_ ht.isInfix
      rw [h]
      exact (httpPat_pref d rest).isInfix
    · refine (hurl d hd).2 ?_
      refine List.IsInfix.trans ?_ ht.isInfix
      rw [h]
      exact (wwwPat_pref d rest).isInfix
  have h2 : scanSub entLen (clean_text s) = clean_text s := by
    apply scanSub_id
    intro t ht
    by_contra hpos
    have hp : 0 < entLen t := Nat.pos_of_ne_zero hpos
    rcases entLen_pos_shape t hp with ⟨rest, h⟩ | ⟨rest, h⟩ | ⟨rest, h⟩
    · exact hent.1 ((show ampPat <+: t from ⟨rest, h.symm⟩).isInfix.trans ht.isInfix)
    · exact hent.2.1 ((show ltPat <+: t from ⟨rest, h.symm⟩).isInfix.trans ht.isInfix)
    · exact hent.2.2 ((show gtPat <+: t from ⟨rest, h.symm⟩).isInfix.trans ht.isInfix)
  have h3 : scanSub wsLen (clean_text s) = clean_text s :=
    collapse_id (clean_text s) hblank htwo
  have h4 : pyStrip (clean_text s) = clean_text s := pyStrip_id (clean_text s) hhead hlast
  show clean_text (clean_text s) = clean_text s
  rw [clean_text, h1, h2, h3, h4]

theorem dedupByF_subset (key : RawComment → Option String) :
    ∀ f l, dedupByF key f l ⊆ l := by
  intro f
  induction f with
  | zero =>
    intro l x hx
    exact hx
  | succ f ih =>
    intro l x hx
    cases l with
    | nil => simp [dedupByF] at hx
    | cons a as =>
      rw [dedupByF] at hx
      rcases List.mem_cons.mp hx with rfl | hx
      · exact List.mem_cons_self _ _
      · exact List.mem_cons_of_mem a (List.mem_of_mem_filter (ih _ hx))

theorem dedupByF_nodup (key : RawComment → Option String) :
    ∀ f l, l.length ≤ f → ((dedupByF key f l).map key).Nodup := by
  intro f
  induction f with
  | zero =>
    intro l h
    have hl : l = [] := by cases l <;> simp_all
    subst hl
    simp [dedupByF]
  | succ f ih =>
    intro l h
    cases l with
    | nil => simp [dedupByF]
    | cons a as =>
      rw [dedupByF, List.map_cons]
      refine List.nodup_cons.mpr ⟨?_, ?_⟩
      · intro hmem
        obtain ⟨y, hy, hky⟩ := List.mem_map.mp hmem
        have hyf : y ∈ as.filter (fun y => !(key y == key a)) := dedupByF_subset key f _ hy
        have hprop := List.of_mem_filter hyf
        simp at hprop
        exact hprop hky
      · refine ih _ ?_
        have h1 : (as.filter (fun y => !(key y == key a))).length ≤ as.length :=
          List.length_filter_le _ _
        simp only [List.length_cons] at h
        omega

/-- Keys of the deduplicated rows are pairwise distinct. -/
theorem dedupBy_nodup (key : RawComment → Option String) (l : List RawComment) :
    ((dedupBy key l).map key).Nodup :=
  dedupByF_nodup key l.length l le_rfl

theorem lexLe_cons (a b : Char) (as bs : List Char) :
    lexLe (a :: as) (b :: bs) = true ↔ a < b ∨ (a = b ∧ lexLe as bs = true) := by
  rw [lexLe]
  by_cases h1 : a < b
  · simp [h1]
  · by_cases h2 : b < a
    · rw [if_neg h1, if_pos h2]
      constructor
      · intro h
        exact absurd h (by simp)
      · intro h
        rcases h with h | ⟨rfl, _⟩
        · exact absurd h h1
        · exact absurd h2 (lt_irrefl a)
    · have hab : a = b := le_antisymm (not_lt.mp h2) (not_lt.mp h1)
      rw [if_neg h1, if_neg h2]
      subst hab
      simp

theorem lexLe_refl : ∀ a : List Char, lexLe a a = true := by
  intro a
  induction a with
  | nil => rfl
  | cons x xs ih => exact (lexLe_cons x x xs xs).mpr (Or.inr ⟨rfl, ih⟩)

theorem lexLe_trans : ∀ a b c : List Char, lexLe a b = true → lexLe b c = true →
    lexLe a c = true := by
  intro a
  induction a with
  | nil =>
    intro b c _ _
    rfl
  | cons x xs ih =>
    intro b c hab hbc
    cases b with
    | nil => simp [lexLe] at hab
    | cons y ys =>
      cases c with
      | nil => simp [lexLe] at hbc
      | cons z zs =>
        rcases (lexLe_cons x y xs ys).mp hab with h1 | ⟨hxy, h1⟩
        · rcases (lexLe_cons y z ys zs).mp hbc with h2 | ⟨hyz, h2⟩
          · exact (lexLe_cons x z xs zs).mpr (Or.inl (h1.trans h2))
          · exact (lexLe_cons x z xs zs).mpr (Or.inl (hyz ▸ h1))
        · rcases (lexLe_cons y z ys zs).mp hbc with h2 | ⟨hyz, h2⟩
          · exact (lexLe_cons x z xs zs).mpr (Or.inl (hxy ▸ h2))
          · exact (lexLe_cons x z xs zs).mpr
              (Or.inr ⟨hxy.trans hyz, ih ys zs h1 h2⟩)

theorem lexLe_total : ∀ a b : List Char, lexLe a b = true ∨ lexLe b a = true := by
  intro a
  induction a with
  | nil =>
    intro b
    exact Or.inl rfl
  | cons x xs ih =>
    intro b
    cases b with
    | nil => exact Or.inr rfl
    | cons y ys =>
      rcases lt_trichotomy x y with h | h | h
      · exact Or.inl ((lexLe_cons x y xs ys).mpr (Or.inl h))
      · subst h
        rcases ih ys with h | h
        · exact Or.inl ((lexLe_cons x x xs ys).mpr (Or.inr ⟨rfl, h⟩))
        · exact Or.inr ((lexLe_cons x x ys xs).mpr (Or.inr ⟨rfl, h⟩))
      · exact Or.inr ((lexLe_cons y x ys xs).mpr (Or.inl h))

theorem lexLe_antisymm : ∀ a b : List Char, lexLe a b = true → lexLe b a = true →
    a = b := by
  intro a
  induction a with
  | nil =>
    intro b _ hba
    cases b with
    | nil => rfl
    | cons y ys => simp [lexLe] at hba
  | cons x xs ih =>
    intro b hab hba
    cases b with
    | nil => simp [lexLe] at hab
    | cons y ys =>
      rcases (lexLe_cons x y xs ys).mp hab with h1 | ⟨hxy, h1⟩
      · rcases (lexLe_cons y x ys xs).mp hba with h2 | ⟨hyx, _⟩
        · exact absurd (h1.trans h2) (lt_irrefl x)
        · exact absurd (hyx ▸ h1) (lt_irrefl y)
      · rcases (lexLe_cons y x ys xs).mp hba with h2 | ⟨_, h2⟩
        · exact absurd (hxy ▸ h2) (lt_irrefl y)
        · rw [hxy, ih ys h1 h2]

theorem nameLe_antisymm (a b : String) (hab : nameLe a b) (hba : nameLe b a) : a = b := by
  have hd : a.data = b.data := lexLe_antisymm a.data b.data hab hba
  cases a
  cases b
  simp only [] at hd
  rw [hd]

theorem sorted_getLast_max (l : List String) (m : String)
    (hs : List.Sorted nameLe l) (hm : l.getLast? = some m) :
    ∀ x ∈ l, nameLe x m := by
  induction l with
  | nil => simp at hm
  | cons a t ih =>
    cases t with
    | nil =>
      simp at hm
      subst hm
      intro x hx
      simp at hx
      subst hx
      exact lexLe_refl _
    | cons b t' =>
      rw [List.getLast?_cons_cons] at hm
      obtain ⟨hhead, htail⟩ := List.sorted_cons.mp hs
      intro x hx
      rcases List.mem_cons.mp hx with rfl | hx
      · have hbm : nameLe b m := ih htail hm b (List.mem_cons_self _ _)
        exact lexLe_trans _ _ _ (hhead b (List.mem_cons_self _ _)) hbm
      · exact ih htail hm x hx

/-- Claim C1: vader_label follows the fixed thresholds on the compound score
(positive from five hundredths up, negative from minus five hundredths down,
neutral between), and the sentiment_vader column of the table any run
persists equals vader_label of the compound column, row by row. -/
theorem c1_vader_thresholds :
    (∀ c : Rat, (vaderThreshold ≤ c → vader_label c = "Positive") ∧
      (c ≤ -vaderThreshold → vader_label c = "Negative") ∧
      (-vaderThreshold < c → c < vaderThreshold → vader_label c = "Neutral")) ∧
    (∀ v ts api mp mc det score,
      (resultTable (run v ts api mp mc det score).2).map (fun r => r.sentiment_vader) =
        (resultTable (run v ts api mp mc det score).2).map
          (fun r => vader_label r.scores.compound)) := by
  have ht : (0 : Rat) < vaderThreshold := by decide
  constructor
  · intro c
    refine ⟨?_, ?_, ?_⟩
    · intro h
      rw [vader_label, if_pos h]
    · intro h
      rw [vader_label, if_neg (by intro hc; linarith), if_pos h]
    · intro h1 h2
      rw [vader_label, if_neg (by intro hc; linarith), if_neg (by intro hc; linarith)]
  · intro v ts api mp mc det score
    by_cases hc : (fetch_comments v api mp mc).comments = []
    · simp only [run, if_pos hc, resultTable]
      rfl
    · simp only [run, if_neg hc, resultTable]
      simp only [processRows, List.map_map]
      rfl

/-- Witness for C1 at concrete scores and a concrete run. -/
theorem c1_vader_thresholds_witness :
    vader_label (mkRat 6 100) = "Positive" ∧
    vader_label (mkRat (-6) 100) = "Negative" ∧
    vader_label (mkRat 1 100) = "Neutral" ∧
    (resultTable (run ("v") 1 apiTwoPages none 5000 detEn scorePos).2).map
        (fun r => r.sentiment_vader) =
      (resultTable (run ("v") 1 apiTwoPages none 5000 detEn scorePos).2).map
        (fun r => vader_label r.scores.compound) :=
  ⟨(c1_vader_thresholds.1 (mkRat 6 100)).1 (by decide),
   (c1_vader_thresholds.1 (mkRat (-6) 100)).2.1 (by decide),
   (c1_vader_thresholds.1 (mkRat 1 100)).2.2 (by decide) (by decide),
   c1_vader_thresholds.2 ("v") 1 apiTwoPages none 5000 detEn scorePos⟩

/-- Claim C5: the only retry is the single retry of the page request: an
HttpError followed by a successful second attempt continues exactly like a
first-try success after one more five-second sleep, and a second consecutive
failure ends the loop with the records accumulated so far rather than
raising. -/
theorem c5_single_retry :
    (∀ v mp mc p rest acc page sl,
      fetchLoop v mp mc (ApiResult.err :: ApiResult.ok p :: rest) acc page sl =
        fetchLoop v mp mc (ApiResult.ok p :: rest) acc page (sl + 1)) ∧
    (∀ v mp mc rest acc page sl,
      fetchLoop v mp mc (ApiResult.err :: ApiResult.err :: rest) acc page sl =
        ⟨acc, StopReason.httpFailure, sl + 1⟩) := by
  constructor
  · intro v mp mc p rest acc page sl
    rfl
  · intro v mp mc rest acc page sl
    rfl

/-- Claim C9: safe_lang returns unknown on empty or whitespace-only input
and whenever the detector raises; it is total by construction. -/
theorem c9_safe_lang (det : List Char → Except Unit String) (s : List Char) :
    (pyStrip s = [] → safe_lang det s = "unknown") ∧
    (∀ e, det s = Except.error e → safe_lang det s = "unknown") := by
  constructor
  · intro h
    rw [safe_lang, if_pos h]
  · intro e he
    by_cases h : pyStrip s = []
    · rw [safe_lang, if_pos h]
    · rw [safe_lang, if_neg h, he]

/-- Witness for C9 on whitespace-only input and on a raising detector. -/
theorem c9_safe_lang_witness :
    pyStrip ("  ".toList) = [] ∧ safe_lang detEn ("  ".toList) = "unknown" ∧
    detFail ("hi".toList) = Except.error () ∧ safe_lang detFail ("hi".toList) = "unknown" :=
  ⟨by decide, (c9_safe_lang detEn ("  ".toList)).1 (by decide), rfl,
    (c9_safe_lang detFail ("hi".toList)).2 () rfl⟩

/-- Claim C10: when the fetch yields no comments, run raises the
RuntimeError before creating any file: no write happens and the outcome is
the failure message. -/
theorem c10_empty_fetch (v : String) (ts : Nat) (api : List ApiResult) (mp : Option Int)
    (mc : Nat) (det : List Char → Except Unit String) (score : List Char → VaderScores)
    (h : (fetch_comments v api mp mc).comments = []) :
    run v ts api mp mc det score =
      ([], RunResult.failed ("No comments fetched - check video id or API quota.")) := by
  simp only [run, if_pos h]

/-- Witness for C10 on a response with no items. -/
theorem c10_empty_fetch_witness :
    (fetch_comments ("v") apiEmptyPage none 5000).comments = [] ∧
    run ("v") 1 apiEmptyPage none 5000 detEn scoreZero =
      ([], RunResult.failed ("No comments fetched - check video id or API quota.")) :=
  ⟨by decide, c10_empty_fetch ("v") 1 apiEmptyPage none 5000 detEn scoreZero (by decide)⟩

theorem fetchLoop_ok_reasons (v : String) (mp : Option Int) (mc : Nat) :
    ∀ api acc page sl, (∀ r ∈ api, r ≠ ApiResult.err) →
      ((fetchLoop v mp mc api acc page sl).reason = StopReason.capReached ∨
       (fetchLoop v mp mc api acc page sl).reason = StopReason.noToken ∨
       (fetchLoop v mp mc api acc page sl).reason = StopReason.maxPagesStop ∨
       (fetchLoop v mp mc api acc page sl).reason = StopReason.outOfResponses) ∧
      ((fetchLoop v mp mc api acc page sl).reason = StopReason.capReached →
        mc ≤ (fetchLoop v mp mc api acc page sl).acc.length) := by
  intro api
  induction api with
  | nil =>
    intro acc page sl _
    constructor
    · exact Or.inr (Or.inr (Or.inr rfl))
    · intro hcap
      rw [fetchLoop] at hcap
      simp at hcap
  | cons r rest ih =>
    intro acc page sl h
    have hr : r ≠ ApiResult.err := h r (List.mem_cons_self _ _)
    cases r with
    | err => exact absurd rfl hr
    | ok p =>
      rw [fetchLoop, pageStep]
      by_cases h1 : mc ≤ (acc ++ (p.items.map (itemRecords v)).flatten).length
      · rw [if_pos h1]
        exact ⟨Or.inl rfl, fun _ => h1⟩
      · rw [if_neg h1]
        by_cases h2 : (!tokenTruthy p.nextPageToken) = true
        · rw [if_pos h2]
          refine ⟨Or.inr (Or.inl rfl), fun hcap => ?_⟩
          simp at hcap
        · rw [if_neg h2]
          by_cases h3 : maxPagesHit mp (page + 1) = true
          · rw [if_pos h3]
            refine ⟨Or.inr (Or.inr (Or.inl rfl)), fun hcap => ?_⟩
            simp at hcap
          · rw [if_neg h3]
            exact ih _ _ _ (fun x hx => h x (List.mem_cons_of_mem _ hx))

/-- Claim C2 (amended): over any sequence of successful pages, the loop
stops only because the comment cap was reached, the next-page token was
falsy, a truthy max_pages was reached, or the supplied responses ran out;
the returned list never exceeds max_comments; and a cap stop accumulated at
least max_comments records. -/
theorem c2_fetch_stop (v : String) (api : List ApiResult) (mp : Option Int) (mc : Nat)
    (h : ∀ r ∈ api, r ≠ ApiResult.err) :
    (fetch_comments v api mp mc).comments.length ≤ mc ∧
    ((fetch_comments v api mp mc).reason = StopReason.capReached ∨
     (fetch_comments v api mp mc).reason = StopReason.noToken ∨
     (fetch_comments v api mp mc).reason = StopReason.maxPagesStop ∨
     (fetch_comments v api mp mc).reason = StopReason.outOfResponses) ∧
    ((fetch_comments v api mp mc).reason = StopReason.capReached →
      mc ≤ (fetch_comments v api mp mc).rawCount) := by
  have hmain := fetchLoop_ok_reasons v mp mc api [] 0 0 h
  refine ⟨?_, hmain.1, hmain.2⟩
  simp only [fetch_comments]
  exact List.length_take_le mc _

/-- Witness for C2 on the two-page response sequence. -/
theorem c2_fetch_stop_witness :
    (∀ r ∈ apiTwoPages, r ≠ ApiResult.err) ∧
    (fetch_comments ("v") apiTwoPages none 5000).comments.length ≤ 5000 ∧
    (fetch_comments ("v") apiTwoPages none 5000).reason = StopReason.noToken := by
  have h : ∀ r ∈ apiTwoPages, r ≠ ApiResult.err := by decide
  exact ⟨h, (c2_fetch_stop ("v") apiTwoPages none 5000 h).1, by decide⟩

/-- Claim C2 counterexample as stated: with max_pages one, the loop stops
after the first page although fewer comments than the cap were accumulated
and the page carried a truthy next-page token, and the second available page
is never fetched. -/
theorem c2_counterexample :
    (fetch_comments ("v") apiTwoPages (some 1) 5000).reason = StopReason.maxPagesStop ∧
    (fetch_comments ("v") apiTwoPages (some 1) 5000).rawCount = 1 ∧
    tokenTruthy (some ("T")) = true ∧
    (fetch_comments ("v") apiTwoPages (some 1) 5000).comments.map
      (fun c => c.comment_id) = [some ("c1")] := by decide

/-- Claim C4: the processed table a successful run persists has pairwise
distinct comment ids: duplicate rows are dropped by comment_id before any
derived column is computed and before the csv is written. -/
theorem c4_dedup_by_id (v : String) (ts : Nat) (api : List ApiResult) (mp : Option Int)
    (mc : Nat) (det : List Char → Except Unit String) (score : List Char → VaderScores)
    (ws : List (String × String)) (o : RunOut)
    (h : run v ts api mp mc det score = (ws, RunResult.finished o)) :
    (o.table.map (fun r => r.base.comment_id)).Nodup := by
  by_cases hc : (fetch_comments v api mp mc).comments = []
  · simp only [run, if_pos hc] at h
    rw [Prod.mk.injEq] at h
    exact absurd h.2 (by simp)
  · simp only [run, if_neg hc] at h
    rw [Prod.mk.injEq] at h
    injection h.2 with h3
    rw [← h3]
    show ((processRows det score (fetch_comments v api mp mc).comments).map
      (fun r => r.base.comment_id)).Nodup
    simp only [processRows, List.map_map]
    exact dedupBy_nodup _ _

/-- Witness for C4 on a response repeating a comment id. -/
theorem c4_dedup_by_id_witness :
    ((processRows detEn scoreZero (fetch_comments ("v") apiDup none 5000).comments).map
      (fun r => r.base.comment_id)).Nodup :=
  c4_dedup_by_id ("v") 1 apiDup none 5000 detEn scoreZero
    (run ("v") 1 apiDup none 5000 detEn scoreZero).1
    ⟨(run ("v") 1 apiDup none 5000 detEn scoreZero).1,
      processRows detEn scoreZero (fetch_comments ("v") apiDup none 5000).comments,
      (PROC_DIR, procFileName ("v") 1)⟩
    (by decide)

/-- Claim C6 counterexample: two invocations of run with the same video id,
max_pages and max_comments but different call times write differently named
files, because every file name embeds the epoch timestamp. -/
theorem c6_counterexample :
    (run ("vid") 1 apiTwoPages none 5000 detEn scoreZero).1 ≠
      (run ("vid") 2 apiTwoPages none 5000 detEn scoreZero).1 ∧
    rawFileName ("vid") 1 ≠ rawFileName ("vid") 2 := by decide

/-- Claim C6 (amended): locations and names are a deterministic function of
the video id and the invocation timestamp: every file a run writes lies in
one of the three fixed directories under one of the five names built from
the video id and the timestamp alone. -/
theorem c6_paths (v : String) (ts : Nat) (api : List ApiResult) (mp : Option Int)
    (mc : Nat) (det : List Char → Except Unit String) (score : List Char → VaderScores) :
    ∀ w ∈ (run v ts api mp mc det score).1,
      w ∈ [(RAW_DIR, rawFileName v ts), (PROC_DIR, procFileName v ts),
        (OUT_DIR, kpiFileName v ts), (OUT_DIR, wcPosFileName v ts),
        (OUT_DIR, wcNegFileName v ts)] := by
  intro w hw
  by_cases hc : (fetch_comments v api mp mc).comments = []
  · simp only [run, if_pos hc] at hw
    simp at hw
  · simp only [run, if_neg hc] at hw
    rcases List.mem_append.mp hw with hw1 | hw2
    · rcases List.mem_append.mp hw1 with hw0 | hwp
      · simp only [List.mem_cons, List.not_mem_nil, or_false] at hw0
        rcases hw0 with rfl | rfl | rfl
        · simp
        · simp
        · simp
      · split at hwp
        · simp only [List.mem_singleton] at hwp
          subst hwp
          simp
        · simp at hwp
    · split at hw2
      · simp only [List.mem_singleton] at hw2
        subst hw2
        simp
      · simp at hw2

/-- Witness for C6 on a concrete run and its raw dump write. -/
theorem c6_paths_witness :
    (RAW_DIR, rawFileName ("vid") 1) ∈
      [(RAW_DIR, rawFileName ("vid") 1), (PROC_DIR, procFileName ("vid") 1),
        (OUT_DIR, kpiFileName ("vid") 1), (OUT_DIR, wcPosFileName ("vid") 1),
        (OUT_DIR, wcNegFileName ("vid") 1)] :=
  c6_paths ("vid") 1 apiTwoPages none 5000 detEn scoreZero
    (RAW_DIR, rawFileName ("vid") 1) (by decide)

theorem getLast?_mem_own (l : List String) (m : String) (h : l.getLast? = some m) :
    m ∈ l := by
  induction l with
  | nil => simp at h
  | cons a t ih =>
    cases t with
    | nil =>
      simp at h
      subst h
      simp
    | cons b t' =>
      rw [List.getLast?_cons_cons] at h
      exact List.mem_cons_of_mem a (ih h)

/-- Claim C7 (amended): each reader loads the matching processed file whose
name sorts last; this is the most recently written table exactly when the
newest file name sorts at or above every other matching name, as for
re-fetches of a single video with equal-width timestamps, but not in
general. -/
theorem c7_last_sorted (files : List String) (f : String) (hf : f ∈ files)
    (hm : matchesProcessed f) (hmax : ∀ g ∈ files, matchesProcessed g → nameLe g f) :
    load_latest_processed files = some f := by
  rw [load_latest_processed]
  have hffl : f ∈ files.filter (fun g => decide (matchesProcessed g)) :=
    List.mem_filter.mpr ⟨hf, by simpa using hm⟩
  have instTot : IsTotal String nameLe := ⟨fun a b => lexLe_total a.data b.data⟩
  have instTrn : IsTrans String nameLe :=
    ⟨fun a b c hab hbc => lexLe_trans a.data b.data c.data hab hbc⟩
  have hsorted : List.Sorted nameLe
      (List.insertionSort nameLe (files.filter (fun g => decide (matchesProcessed g)))) :=
    List.sorted_insertionSort nameLe (files.filter (fun g => decide (matchesProcessed g)))
  have hperm :=
    List.perm_insertionSort nameLe (files.filter (fun g => decide (matchesProcessed g)))
  have hne : List.insertionSort nameLe
      (files.filter (fun g => decide (matchesProcessed g))) ≠ [] := by
    intro h0
    rw [h0] at hperm
    have hx : f ∈ ([] : List String) := hperm.mem_iff.mpr hffl
    simp at hx
  obtain ⟨mel, hmel⟩ := Option.isSome_iff_exists.mp (List.getLast?_isSome.mpr hne)
  rw [hmel]
  have hmem_sorted : mel ∈ List.insertionSort nameLe
      (files.filter (fun g => decide (matchesProcessed g))) := getLast?_mem_own _ _ hmel
  have hmemf := hperm.subset hmem_sorted
  have h1 : nameLe f mel :=
    sorted_getLast_max _ _ hsorted hmel f (hperm.mem_iff.mpr hffl)
  have h2 : nameLe mel f := by
    obtain ⟨hmemfile, hmatch⟩ := List.mem_filter.mp hmemf
    exact hmax mel hmemfile (by simpa using hmatch)
  rw [nameLe_antisymm mel f h2 h1]

/-- Claim C7 counterexample: the directory holds an older file of another
video whose name sorts later; after re-fetching video abc the readers load
the stale zzz table, not the most recently written one. -/
theorem c7_counterexample :
    load_latest_processed
      ["processed_zzz_100.csv", "processed_abc_150.csv", "processed_abc_200.csv"] =
      some ("processed_zzz_100.csv") ∧
    ("processed_zzz_100.csv" : String) ≠ ("processed_abc_200.csv" : String) := by decide

/-- Witness for C7 when the newest name sorts last among the matches. -/
theorem c7_last_sorted_witness :
    load_latest_processed
      ["processed_abc_100.csv", "notes.txt", "processed_abc_200.csv"] =
      some ("processed_abc_200.csv") :=
  c7_last_sorted ["processed_abc_100.csv", "notes.txt", "processed_abc_200.csv"]
    ("processed_abc_200.csv") (by decide) (by decide) (by decide)

/-- Claim C3 (amended): clean_text strips every URL marker that extends
beyond the bare prefix and the three escape sequences amp, lt and gt the
code handles; it collapses whitespace runs to single blanks and leaves no
leading or trailing whitespace.  Stated over occurrences: the result never
contains http or www-dot immediately followed by a non-space character, so
no surviving token extends one of those markers; a bare token http or
www-dot, and entities other than the three (such as quot), may remain. -/
theorem c3_clean_text_strips (s : List Char) :
    (∀ d, pySpace d = false →
      ¬ (httpPat d <:+: clean_text s) ∧ ¬ (wwwPat d <:+: clean_text s)) ∧
    (¬ (ampPat <:+: clean_text s) ∧ ¬ (ltPat <:+: clean_text s) ∧
      ¬ (gtPat <:+: clean_text s)) ∧
    (∀ c ∈ clean_text s, pySpace c = true → c = ' ') ∧
    (∀ c d, pySpace c = true → pySpace d = true → ¬ ([c, d] <:+: clean_text s)) ∧
    (∀ c, (clean_text s).head? = some c → pySpace c = false) ∧
    (∀ c, (clean_text s).getLast? = some c → pySpace c = false) :=
  clean_text_props s

/-- Witness for C3 on a concrete input holding a URL, an escape and spaced
words. -/
theorem c3_clean_text_strips_witness :
    clean_text ("go http://a  &lt; b".toList) = "go b".toList ∧
    pySpace 'x' = false ∧
    ¬ (httpPat 'x' <:+: clean_text ("go http://a  &lt; b".toList)) ∧
    ¬ (ltPat <:+: clean_text ("go http://a  &lt; b".toList)) ∧
    (∀ c, (clean_text ("go http://a  &lt; b".toList)).head? = some c →
      pySpace c = false) :=
  ⟨by decide, by decide,
    ((c3_clean_text_strips ("go http://a  &lt; b".toList)).1 'x' (by decide)).1,
    (c3_clean_text_strips ("go http://a  &lt; b".toList)).2.1.2.1,
    (c3_clean_text_strips ("go http://a  &lt; b".toList)).2.2.2.2.1⟩

/-- Claim C3 counterexample as stated: on the input of a bare http token and
the quot entity, clean_text returns its input unchanged, so the result still
has a token beginning with http and still contains an HTML entity. -/
theorem c3_counterexample :
    clean_text ("http &quot;".toList) = "http &quot;".toList ∧
    ("http".toList <+: clean_text ("http &quot;".toList)) ∧
    ("&quot;".toList <:+ clean_text ("http &quot;".toList)) := by
  refine ⟨by decide, by decide, by decide⟩

end YtSent
